import Mathlib

/-!
Verification of the lodestone-inside point-in-polygon library.

The library decides whether a point lies inside a polygon with holes using
the winding-number algorithm.  A point is a coordinate pair, a ring is a
list of vertices, and a polygon is a list of rings whose first element is
the shell and whose remaining elements are holes.  Coordinates are modelled
as exact rationals; a second model extends the coordinates with an absorbing
NaN value to capture the IEEE comparison semantics of the source's f64
operations where a property concerns NaN.
-/

namespace Lodestone

/-- A point: an (x, y) coordinate pair. -/
abbrev Point := ℚ × ℚ

/-- A directed line segment: (start vertex, end vertex). -/
abbrev Seg := Point × Point

/-- `relative_pos` from the source: the 2D cross product that determines
whether the point is Left, On, or Right of the directed line. -/
def relative_pos (pt : Point) (line : Seg) : ℚ :=
  (line.2.1 - line.1.1) * (pt.2 - line.1.2) - (line.2.2 - line.1.2) * (pt.1 - line.1.1)

/-- `is_left` from the source: true if the point is strictly left of the
directed line. -/
def is_left (pt : Point) (line : Seg) : Bool :=
  decide (relative_pos pt line > 0)

/-- `is_right` from the source: true if the point is strictly right of the
directed line. -/
def is_right (pt : Point) (line : Seg) : Bool :=
  decide (relative_pos pt line < 0)

/-- Consecutive vertex pairs of a ring: `ring.windows(2)` from the source. -/
def windows2 : List Point → List Seg
  | a :: b :: t => (a, b) :: windows2 (b :: t)
  | _ => []

/-- The body of the edge loop in `in_ring`: the contribution of one edge to
the winding counter (+1 upward crossing with point left, -1 downward
crossing with point right, 0 otherwise). -/
def edge_step (pt : Point) (edge : Seg) : Int :=
  if edge.1.2 ≤ pt.2 ∧ edge.2.2 > pt.2 then
    (if is_left pt edge then 1 else 0)
  else if edge.1.2 > pt.2 ∧ edge.2.2 ≤ pt.2 then
    (if is_right pt edge then -1 else 0)
  else 0

/-- The winding counter `wn` accumulated by the edge loop of `in_ring`. -/
def winding (pt : Point) (ring : List Point) : Int :=
  (windows2 ring).foldl (fun wn e => wn + edge_step pt e) 0

/-- `in_ring` from the source: the point is in the ring iff the winding
counter is nonzero. -/
def in_ring (pt : Point) (ring : List Point) : Bool :=
  decide (winding pt ring ≠ 0)

/-- The hole loop of `inside`: true unless some hole contains the point;
the loop breaks at the first containing hole. -/
def check_holes (pt : Point) (holes : List (List Point)) : Bool :=
  match holes with
  | [] => true
  | h :: t => if in_ring pt h then false else check_holes pt t

/-- `inside` from the source.  The source unwraps the first ring of the
polygon, which is an out-of-bounds access when the ring sequence is empty;
that failure is modelled as `none`. -/
def inside (pt : Point) (poly : List (List Point)) : Option Bool :=
  match poly with
  | [] => none
  | shell :: holes =>
      some (if in_ring pt shell then check_holes pt holes else false)

/-- The winding-counter update exactly as the spec words it: increment when
y1 ≤ py and y2 > py and the point is strictly left of the directed edge
(cross product positive); decrement when y1 > py and y2 ≤ py and the point
is strictly right (cross product negative); otherwise unchanged. -/
def spec_step (pt : Point) (v1 v2 : Point) : Int :=
  if v1.2 ≤ pt.2 ∧ v2.2 > pt.2 ∧
      (v2.1 - v1.1) * (pt.2 - v1.2) - (v2.2 - v1.2) * (pt.1 - v1.1) > 0 then 1
  else if v1.2 > pt.2 ∧ v2.2 ≤ pt.2 ∧
      (v2.1 - v1.1) * (pt.2 - v1.2) - (v2.2 - v1.2) * (pt.1 - v1.1) < 0 then -1
  else 0

/-- The winding counter as described by the spec: start at 0 and apply
`spec_step` to each consecutive vertex pair in order. -/
def spec_winding (pt : Point) (ring : List Point) : Int :=
  (windows2 ring).foldl (fun wn e => wn + spec_step pt e.1 e.2) 0

/-! ### The NaN-aware coordinate model

The source operates on f64.  For the NaN-related property, a coordinate is
`Option ℚ` where `none` stands for NaN: every IEEE comparison with NaN is
false, and NaN is absorbing for arithmetic. -/

/-- An f64-style coordinate: `none` is NaN, `some q` an ordinary value. -/
abbrev FVal := Option ℚ

/-- IEEE `<=`: false whenever an operand is NaN. -/
def fle : FVal → FVal → Bool
  | some a, some b => decide (a ≤ b)
  | _, _ => false

/-- IEEE `<`: false whenever an operand is NaN. -/
def flt : FVal → FVal → Bool
  | some a, some b => decide (a < b)
  | _, _ => false

/-- NaN-absorbing subtraction. -/
def fsub : FVal → FVal → FVal
  | some a, some b => some (a - b)
  | _, _ => none

/-- NaN-absorbing multiplication. -/
def fmul : FVal → FVal → FVal
  | some a, some b => some (a * b)
  | _, _ => none

/-- A point in the NaN-aware model. -/
abbrev FPoint := FVal × FVal

/-- `relative_pos` in the NaN-aware model. -/
def relative_posF (pt : FPoint) (line : FPoint × FPoint) : FVal :=
  fsub (fmul (fsub line.2.1 line.1.1) (fsub pt.2 line.1.2))
       (fmul (fsub line.2.2 line.1.2) (fsub pt.1 line.1.1))

/-- `is_left` in the NaN-aware model: `relative_pos > 0.0`. -/
def is_leftF (pt : FPoint) (line : FPoint × FPoint) : Bool :=
  flt (some 0) (relative_posF pt line)

/-- `is_right` in the NaN-aware model: `relative_pos < 0.0`. -/
def is_rightF (pt : FPoint) (line : FPoint × FPoint) : Bool :=
  flt (relative_posF pt line) (some 0)

/-- The upward-crossing condition `y1 <= py && y2 > py` of `in_ring` under
IEEE comparison semantics. -/
def up_crossF (pt : FPoint) (e : FPoint × FPoint) : Bool :=
  fle e.1.2 pt.2 && flt pt.2 e.2.2

/-- The downward-crossing condition `y1 > py && y2 <= py` of `in_ring`
under IEEE comparison semantics. -/
def down_crossF (pt : FPoint) (e : FPoint × FPoint) : Bool :=
  flt pt.2 e.1.2 && fle e.2.2 pt.2

/-- Consecutive vertex pairs in the NaN-aware model. -/
def windows2F : List FPoint → List (FPoint × FPoint)
  | a :: b :: t => (a, b) :: windows2F (b :: t)
  | _ => []

/-- One edge's winding contribution in the NaN-aware model. -/
def edge_stepF (pt : FPoint) (e : FPoint × FPoint) : Int :=
  if up_crossF pt e then (if is_leftF pt e then 1 else 0)
  else if down_crossF pt e then (if is_rightF pt e then -1 else 0)
  else 0

/-- `in_ring` in the NaN-aware model. -/
def in_ringF (pt : FPoint) (ring : List FPoint) : Bool :=
  decide ((windows2F ring).foldl (fun wn e => wn + edge_stepF pt e) 0 ≠ 0)

/-! ### Helper lemmas -/

theorem windows2_cons2 (a b : Point) (t : List Point) :
    windows2 (a :: b :: t) = (a, b) :: windows2 (b :: t) := rfl

theorem foldl_add_eq_sum {α : Type} (f : α → Int) (l : List α) (a : Int) :
    l.foldl (fun wn e => wn + f e) a = a + (l.map f).sum := by
  induction l generalizing a with
  | nil => simp
  | cons e t ih =>
    simp only [List.foldl_cons, List.map_cons, List.sum_cons, ih]
    omega

theorem winding_eq_sum (pt : Point) (ring : List Point) :
    winding pt ring = ((windows2 ring).map (edge_step pt)).sum := by
  simpa using foldl_add_eq_sum (edge_step pt) (windows2 ring) 0

theorem sum_map_neg {α : Type} (f : α → Int) (l : List α) :
    (l.map (fun e => -f e)).sum = -(l.map f).sum := by
  induction l with
  | nil => simp
  | cons e t ih => simp [ih]; omega

theorem check_holes_eq_all (pt : Point) (holes : List (List Point)) :
    check_holes pt holes = holes.all (fun h => !in_ring pt h) := by
  induction holes with
  | nil => rfl
  | cons h t ih =>
    by_cases hh : in_ring pt h = true <;>
      simp [check_holes, hh, ih]

theorem relative_pos_swap (pt : Point) (e : Seg) :
    relative_pos pt (e.2, e.1) = - relative_pos pt e := by
  rcases pt with ⟨px, py⟩
  rcases e with ⟨⟨x1, y1⟩, ⟨x2, y2⟩⟩
  simp only [relative_pos]
  ring

theorem edge_step_swap (pt : Point) (e : Seg) :
    edge_step pt (e.2, e.1) = - edge_step pt e := by
  rcases pt with ⟨px, py⟩
  rcases e with ⟨⟨x1, y1⟩, ⟨x2, y2⟩⟩
  have hswap : relative_pos (px, py) ((x2, y2), (x1, y1)) =
      - relative_pos (px, py) ((x1, y1), (x2, y2)) :=
    relative_pos_swap (px, py) ((x1, y1), (x2, y2))
  rcases le_or_lt y1 py with h1 | h1 <;> rcases le_or_lt y2 py with h2 | h2
  · have A : ¬ py < y1 := not_lt.mpr h1
    have B : ¬ py < y2 := not_lt.mpr h2
    simp [edge_step, h1, h2, A, B]
  · have B : ¬ y2 ≤ py := not_le.mpr h2
    by_cases hb : 0 < relative_pos (px, py) ((x1, y1), (x2, y2)) <;>
      simp [edge_step, is_left, is_right, h1, h2, B, hswap, hb, neg_lt_zero]
  · have A : ¬ y1 ≤ py := not_le.mpr h1
    by_cases hb : relative_pos (px, py) ((x1, y1), (x2, y2)) < 0 <;>
      simp [edge_step, is_left, is_right, h1, h2, A, hswap, hb, neg_pos]
  · have A : ¬ y1 ≤ py := not_le.mpr h1
    have B : ¬ y2 ≤ py := not_le.mpr h2
    simp [edge_step, h1, h2, A, B]

theorem windows2_snoc2 (m : List Point) (g x : Point) :
    windows2 (m ++ [g] ++ [x]) = windows2 (m ++ [g]) ++ [(g, x)] := by
  induction m with
  | nil => rfl
  | cons a t ih =>
    cases t with
    | nil => rfl
    | cons b t2 =>
      simpa [windows2_cons2] using ih

theorem windows2_reverse (l : List Point) :
    windows2 l.reverse = ((windows2 l).map (fun e => (e.2, e.1))).reverse := by
  induction l with
  | nil => rfl
  | cons a l ih =>
    cases l with
    | nil => rfl
    | cons b t =>
      have hrev : (a :: b :: t).reverse = (b :: t).reverse ++ [a] := by simp
      have hbt : (b :: t).reverse = t.reverse ++ [b] := by simp
      rw [hrev, hbt, windows2_snoc2, ← hbt, ih]
      simp [windows2_cons2]

theorem winding_reverse (pt : Point) (ring : List Point) :
    winding pt ring.reverse = - winding pt ring := by
  rw [winding_eq_sum, winding_eq_sum, windows2_reverse, List.map_reverse,
    List.sum_reverse, List.map_map]
  have hcomp : (edge_step pt) ∘ (fun e : Seg => (e.2, e.1)) =
      fun e => - edge_step pt e := by
    funext e
    exact edge_step_swap pt e
  rw [hcomp, sum_map_neg]

theorem edge_step_eq_spec (pt : Point) (e : Seg) :
    edge_step pt e = spec_step pt e.1 e.2 := by
  rcases pt with ⟨px, py⟩
  rcases e with ⟨⟨x1, y1⟩, ⟨x2, y2⟩⟩
  rcases le_or_lt y1 py with h1 | h1 <;> rcases le_or_lt y2 py with h2 | h2
  · have A : ¬ py < y1 := not_lt.mpr h1
    have B : ¬ py < y2 := not_lt.mpr h2
    simp [edge_step, spec_step, h1, h2, A, B]
  · have B : ¬ y2 ≤ py := not_le.mpr h2
    by_cases hc : 0 < (x2 - x1) * (py - y1) - (y2 - y1) * (px - x1) <;>
      simp [edge_step, spec_step, is_left, is_right, relative_pos, h1, h2, B, hc]
  · have A : ¬ y1 ≤ py := not_le.mpr h1
    by_cases hc : (x2 - x1) * (py - y1) - (y2 - y1) * (px - x1) < 0 <;>
      simp [edge_step, spec_step, is_left, is_right, relative_pos, h1, h2, A, hc]
  · have A : ¬ y1 ≤ py := not_le.mpr h1
    have B : ¬ y2 ≤ py := not_le.mpr h2
    simp [edge_step, spec_step, h1, h2, A, B]

theorem winding_eq_spec_winding (pt : Point) (ring : List Point) :
    winding pt ring = spec_winding pt ring := by
  unfold winding spec_winding
  congr 1
  funext wn e
  rw [edge_step_eq_spec]

theorem fle_nan_right (a : FVal) : fle a none = false := by
  cases a <;> rfl

theorem fle_nan_left (b : FVal) : fle none b = false := by
  cases b <;> rfl

theorem flt_nan_right (a : FVal) : flt a none = false := by
  cases a <;> rfl

theorem flt_nan_left (b : FVal) : flt none b = false := by
  cases b <;> rfl

theorem up_crossF_nan (pt : FPoint) (e : FPoint × FPoint)
    (h : pt.2 = none ∨ e.1.2 = none ∨ e.2.2 = none) :
    up_crossF pt e = false := by
  rcases h with h | h | h <;>
    simp [up_crossF, h, fle_nan_right, fle_nan_left, flt_nan_right, flt_nan_left]

theorem down_crossF_nan (pt : FPoint) (e : FPoint × FPoint)
    (h : pt.2 = none ∨ e.1.2 = none ∨ e.2.2 = none) :
    down_crossF pt e = false := by
  rcases h with h | h | h <;>
    simp [down_crossF, h, fle_nan_right, fle_nan_left, flt_nan_right, flt_nan_left]

theorem edge_stepF_nan (pt : FPoint) (e : FPoint × FPoint)
    (h : pt.2 = none) : edge_stepF pt e = 0 := by
  simp [edge_stepF, up_crossF_nan pt e (Or.inl h), down_crossF_nan pt e (Or.inl h)]

theorem foldl_stepF_nan (pt : FPoint) (h : pt.2 = none)
    (l : List (FPoint × FPoint)) (a : Int) :
    l.foldl (fun wn e => wn + edge_stepF pt e) a = a := by
  induction l generalizing a with
  | nil => rfl
  | cons e t ih =>
    simp [List.foldl_cons, edge_stepF_nan pt e h, ih]

/-! ### Claim theorems -/

/-- Claim C1: for every point and every polygon with a non-empty ring
sequence, `inside` is true iff the point is in the shell and in none of the
holes; a point outside the shell yields false whatever the holes are, and
the first hole containing the point fixes the result false independently of
all later holes. -/
theorem c1_inside_shell_and_holes (pt : Point) (shell : List Point) :
    (∀ holes, (inside pt (shell :: holes) = some true ↔
        in_ring pt shell = true ∧ ∀ r ∈ holes, in_ring pt r = false)) ∧
    (∀ holes, in_ring pt shell = false → inside pt (shell :: holes) = some false) ∧
    (∀ pre hole post post', in_ring pt hole = true →
      inside pt (shell :: (pre ++ hole :: post)) = some false ∧
      inside pt (shell :: (pre ++ hole :: post)) =
        inside pt (shell :: (pre ++ hole :: post'))) := by
  refine ⟨?_, ?_, ?_⟩
  · intro holes
    by_cases hs : in_ring pt shell = true
    · simp [inside, hs, check_holes_eq_all, List.all_eq_true]
    · simp only [Bool.not_eq_true] at hs
      simp [inside, hs]
  · intro holes hs
    simp [inside, hs]
  · intro pre hole post post' hh
    have hall : ∀ q, check_holes pt (pre ++ hole :: q) = false := by
      intro q
      simp [check_holes_eq_all, List.all_append, List.all_cons, hh]
    constructor
    · by_cases hs : in_ring pt shell = true <;> simp [inside, hs, hall]
    · by_cases hs : in_ring pt shell = true <;> simp [inside, hs, hall]

/-- Claim C2: for every point and ring with at least 2 vertices, `in_ring`
is true iff the winding counter described by the spec (start at 0,
increment on an upward crossing with the point strictly left, decrement on
a downward crossing with the point strictly right, otherwise unchanged) is
nonzero; the code's counter coincides with the spec's counter. -/
theorem c2_in_ring_matches_spec_winding (pt : Point) (ring : List Point)
    (hlen : 2 ≤ ring.length) :
    (in_ring pt ring = true ↔ spec_winding pt ring ≠ 0) ∧
    winding pt ring = spec_winding pt ring := by
  refine ⟨?_, winding_eq_spec_winding pt ring⟩
  simp [in_ring, winding_eq_spec_winding]

theorem c2_in_ring_matches_spec_winding_witness :
    (in_ring ((1:ℚ), (1:ℚ)) [(0,0),(2,0),(2,2),(0,2),(0,0)] = true ↔
      spec_winding ((1:ℚ), (1:ℚ)) [(0,0),(2,0),(2,2),(0,2),(0,0)] ≠ 0) ∧
    winding ((1:ℚ), (1:ℚ)) [(0,0),(2,0),(2,2),(0,2),(0,0)] =
      spec_winding ((1:ℚ), (1:ℚ)) [(0,0),(2,0),(2,2),(0,2),(0,0)] :=
  c2_in_ring_matches_spec_winding ((1:ℚ), (1:ℚ))
    [(0,0),(2,0),(2,2),(0,2),(0,0)] (by simp)

/-- Claim C3: `relative_pos` computes exactly the cross product
(x2 − x1)·(py − y1) − (y2 − y1)·(px − x1); `is_left` is true iff it is
strictly positive, `is_right` is true iff it is strictly negative, and on
the line (value 0) both are false. -/
theorem c3_relative_pos_cross_product (pt : Point) (line : Seg) :
    relative_pos pt line =
      (line.2.1 - line.1.1) * (pt.2 - line.1.2) -
        (line.2.2 - line.1.2) * (pt.1 - line.1.1) ∧
    (is_left pt line = true ↔ relative_pos pt line > 0) ∧
    (is_right pt line = true ↔ relative_pos pt line < 0) ∧
    (relative_pos pt line = 0 →
      is_left pt line = false ∧ is_right pt line = false) := by
  refine ⟨rfl, by simp [is_left], by simp [is_right], ?_⟩
  intro h0
  simp [is_left, is_right, h0]

/-- Claim C4: reversing a ring's vertex order flips the sign of the winding
counter and therefore never changes the result of `in_ring`. -/
theorem c4_reverse_ring_invariance (pt : Point) (ring : List Point) :
    winding pt ring.reverse = - winding pt ring ∧
    in_ring pt ring.reverse = in_ring pt ring := by
  refine ⟨winding_reverse pt ring, ?_⟩
  simp [in_ring, winding_reverse, neg_ne_zero]

/-- Claim C5: on the square ring the origin vertex is classified inside,
and on the concave triangle ring (3,0) is outside while (1,0) is inside. -/
theorem c5_concrete_rings :
    in_ring ((0:ℚ), (0:ℚ)) [(0,0),(2,0),(2,2),(0,2),(0,0)] = true ∧
    in_ring ((3:ℚ), (0:ℚ)) [(-1,-1),(3,3),(2,0),(5,-1),(-1,-1)] = false ∧
    in_ring ((1:ℚ), (0:ℚ)) [(-1,-1),(3,3),(2,0),(5,-1),(-1,-1)] = true := by
  refine ⟨?_, ?_, ?_⟩ <;>
    norm_num [in_ring, winding, windows2, edge_step, is_left, is_right,
      relative_pos]

/-- Claim C6: a perfectly horizontal edge (y1 = y2) satisfies neither the
upward-crossing nor the downward-crossing condition for any point, so it
contributes nothing to the winding counter. -/
theorem c6_horizontal_edge_no_crossing (pt : Point) (e : Seg)
    (h : e.1.2 = e.2.2) :
    ¬(e.1.2 ≤ pt.2 ∧ e.2.2 > pt.2) ∧ ¬(e.1.2 > pt.2 ∧ e.2.2 ≤ pt.2) ∧
    edge_step pt e = 0 := by
  have h1 : ¬(e.1.2 ≤ pt.2 ∧ e.2.2 > pt.2) := by
    rintro ⟨a, b⟩
    rw [h] at a
    exact absurd b (not_lt.mpr a)
  have h2 : ¬(e.1.2 > pt.2 ∧ e.2.2 ≤ pt.2) := by
    rintro ⟨a, b⟩
    rw [h] at a
    exact absurd a (not_lt.mpr b)
  exact ⟨h1, h2, by simp [edge_step, h1, h2]⟩

theorem c6_horizontal_edge_no_crossing_witness :
    ¬((((0:ℚ), (0:ℚ)), ((1:ℚ), (0:ℚ))).1.2 ≤ ((5:ℚ), (7:ℚ)).2 ∧
        (((0:ℚ), (0:ℚ)), ((1:ℚ), (0:ℚ))).2.2 > ((5:ℚ), (7:ℚ)).2) ∧
    ¬((((0:ℚ), (0:ℚ)), ((1:ℚ), (0:ℚ))).1.2 > ((5:ℚ), (7:ℚ)).2 ∧
        (((0:ℚ), (0:ℚ)), ((1:ℚ), (0:ℚ))).2.2 ≤ ((5:ℚ), (7:ℚ)).2) ∧
    edge_step ((5:ℚ), (7:ℚ)) (((0:ℚ), (0:ℚ)), ((1:ℚ), (0:ℚ))) = 0 :=
  c6_horizontal_edge_no_crossing ((5:ℚ), (7:ℚ))
    (((0:ℚ), (0:ℚ)), ((1:ℚ), (0:ℚ))) rfl

/-- Claim C7: for a point not collinear with the edge, reversing the edge's
direction swaps strict-left and strict-right. -/
theorem c7_left_right_antisymmetry (pt v1 v2 : Point)
    (h : relative_pos pt (v1, v2) ≠ 0) :
    is_left pt (v1, v2) = is_right pt (v2, v1) := by
  have hswap : relative_pos pt (v2, v1) = - relative_pos pt (v1, v2) :=
    relative_pos_swap pt (v1, v2)
  simp [is_left, is_right, hswap, neg_lt_zero]

theorem c7_left_right_antisymmetry_witness :
    is_left ((0:ℚ), (1:ℚ)) (((0:ℚ), (0:ℚ)), ((1:ℚ), (0:ℚ))) =
      is_right ((0:ℚ), (1:ℚ)) (((1:ℚ), (0:ℚ)), ((0:ℚ), (0:ℚ))) :=
  c7_left_right_antisymmetry ((0:ℚ), (1:ℚ)) ((0:ℚ), (0:ℚ)) ((1:ℚ), (0:ℚ))
    (by norm_num [relative_pos])

/-- Claim C8: `inside` requires a shell: with at least one ring the shell
extraction succeeds and a boolean is returned, while with zero rings there
is no defined boolean answer (modelled as `none` for the source's
out-of-bounds unwrap). -/
theorem c8_shell_required (pt : Point) :
    inside pt [] = none ∧
    ∀ shell holes, ∃ b, inside pt (shell :: holes) = some b :=
  ⟨rfl, fun _ _ => ⟨_, rfl⟩⟩

/-- Claim C9: in the NaN-aware model, an edge one of whose endpoint
y-coordinates is NaN, or a query point whose y-coordinate is NaN, satisfies
neither crossing condition (every IEEE comparison with NaN is false), and
`in_ring` on a point with NaN y-coordinate returns false on every ring. -/
theorem c9_nan_comparisons (pt : FPoint) (e : FPoint × FPoint)
    (ring : List FPoint) (h : pt.2 = none ∨ e.1.2 = none ∨ e.2.2 = none) :
    (up_crossF pt e = false ∧ down_crossF pt e = false) ∧
    (pt.2 = none → in_ringF pt ring = false) := by
  refine ⟨⟨up_crossF_nan pt e h, down_crossF_nan pt e h⟩, ?_⟩
  intro hpt
  simp [in_ringF, foldl_stepF_nan pt hpt]

theorem c9_nan_comparisons_witness :
    (up_crossF ((some 0, none) : FPoint)
        (((some 0, some 0), (some 1, some 1)) : FPoint × FPoint) = false ∧
      down_crossF ((some 0, none) : FPoint)
        (((some 0, some 0), (some 1, some 1)) : FPoint × FPoint) = false) ∧
    (((some 0, none) : FPoint).2 = none →
      in_ringF ((some 0, none) : FPoint)
        ([(some 0, some 0), (some 1, some 1), (some 0, some 0)] :
          List FPoint) = false) :=
  c9_nan_comparisons ((some 0, none) : FPoint)
    (((some 0, some 0), (some 1, some 1)) : FPoint × FPoint)
    ([(some 0, some 0), (some 1, some 1), (some 0, some 0)] : List FPoint)
    (Or.inl rfl)

/-- Claim C10: a ring with fewer than 2 vertices yields no edges, so
`in_ring` returns false on it; as a hole it never excludes a point, and as
a shell it makes `inside` return false. -/
theorem c10_degenerate_ring (pt : Point) (ring : List Point)
    (hlen : ring.length < 2) :
    in_ring pt ring = false ∧
    (∀ holes, inside pt (ring :: holes) = some false) ∧
    (∀ holes, check_holes pt (ring :: holes) = check_holes pt holes) ∧
    (∀ shell holes,
      inside pt (shell :: ring :: holes) = inside pt (shell :: holes)) := by
  have hw : windows2 ring = [] := by
    cases ring with
    | nil => rfl
    | cons a t =>
      cases t with
      | nil => rfl
      | cons b t2 =>
        exfalso
        simp only [List.length_cons] at hlen
        omega
  have hr : in_ring pt ring = false := by
    simp [in_ring, winding, hw]
  refine ⟨hr, ?_, ?_, ?_⟩
  · intro holes
    simp [inside, hr]
  · intro holes
    simp [check_holes, hr]
  · intro shell holes
    simp [inside, check_holes, hr]

theorem c10_degenerate_ring_witness :
    in_ring ((0:ℚ), (0:ℚ)) ([] : List Point) = false :=
  (c10_degenerate_ring ((0:ℚ), (0:ℚ)) ([] : List Point) (by decide)).1

end Lodestone
